import Mathlib

/-!
Shallow embedding of the map-reduce word-count pipeline in `src/task.py`:
tokenization (`tokenize`), the map/shuffle/reduce stages (`map_function`,
`shuffle_function`, `reduce_function`, `map_reduce`) and the ranking /
report stage (`Counter.most_common` inside `print_top_words`).

Python dictionaries preserve insertion order, so the count map is embedded
as an ordered association list `List (String × Nat)` with unique keys.
`ThreadPoolExecutor.map` returns its results in the order of its input
iterable regardless of the pool size, so each parallel phase is embedded
as an order-preserving `List.map` parameterised by the (result-irrelevant)
worker count.
-/

namespace Task

/-- A character matched by Python's `\w` class (letter, digit or underscore);
the embedding uses the ASCII fragment, which is all the claims exercise. -/
def isWordChar (c : Char) : Bool := c.isAlpha || c.isDigit || c = '_'

/-- A character matched by the regex character class `[\w']` in
`re.findall(r"\b[\w']+\b", ...)`: a word character or an apostrophe. -/
def isTokChar (c : Char) : Bool := isWordChar c || c = '\''

/-- Embedding of Python's `str.lower()` (character-wise lower-casing). -/
def lowerStr (s : String) : String := String.mk (s.data.map Char.toLower)

/-- Splits a character list into its maximal runs of `isTokChar` characters,
dropping the separating characters.  `cur` carries the current run reversed. -/
def splitRunsAux : List Char → List Char → List (List Char)
  | cur, [] => if cur.isEmpty then [] else [cur.reverse]
  | cur, c :: cs =>
    if isTokChar c then splitRunsAux (c :: cur) cs
    else (if cur.isEmpty then [] else [cur.reverse]) ++ splitRunsAux [] cs

/-- The maximal runs of `[\w']` characters of a character list. -/
def tokenRuns (cs : List Char) : List (List Char) := splitRunsAux [] cs

/-- Removes leading and trailing apostrophes from a run. -/
def trimApos (run : List Char) : List Char :=
  ((run.dropWhile (· == '\'')).reverse.dropWhile (· == '\'')).reverse

/-- Embedding of `re.findall(r"\b[\w']+\b", s)` on a character list.
A match must start and end at a `\b` word boundary, so within each maximal
`[\w']` run the (single, greedy) match spans from the first to the last
word character: runs made only of apostrophes produce no match, and every
other run produces the run with leading and trailing apostrophes removed. -/
def findallTokens (cs : List Char) : List (List Char) :=
  (tokenRuns cs).filterMap
    (fun run => if run.any isWordChar then some (trimApos run) else none)

/-- Embedding of `tokenize(text)`: `re.findall(r"\b[\w']+\b", text.lower())`. -/
def tokenize (text : String) : List String :=
  (findallTokens (lowerStr text).data).map String.mk

/-- Modelled from the spec (for refinement comparison only): "lower-case the
full text, then extract maximal runs matching one or more of: letter, digit,
underscore, or apostrophe as a single token, discarding everything else". -/
def spec_tokenize (text : String) : List String :=
  (tokenRuns (lowerStr text).data).map String.mk

/-- Embedding of `map_function(word)`: returns `(word, 1)`. -/
def map_function (word : String) : String × Nat := (word, 1)

/-- One step of the shuffle: append `v` to the bucket of key `k`, creating
the bucket at the end if absent (`defaultdict(list)` with Python's
insertion-ordered dictionaries). -/
def insertBucket : List (String × List Nat) → String → Nat → List (String × List Nat)
  | [], k, v => [(k, [v])]
  | (k', vs) :: rest, k, v =>
    if k' = k then (k', vs ++ [v]) :: rest
    else (k', vs) :: insertBucket rest k v

/-- Embedding of `shuffle_function(mapped_values)`: group values by key into
insertion-ordered buckets. -/
def shuffle_function (mapped_values : List (String × Nat)) : List (String × List Nat) :=
  mapped_values.foldl (fun bs kv => insertBucket bs kv.1 kv.2) []

/-- Embedding of `reduce_function((key, values))`: returns `(key, sum(values))`. -/
def reduce_function (key_values : String × List Nat) : String × Nat :=
  (key_values.1, key_values.2.sum)

/-- Embedding of `max(1, workers)`, the effective pool size passed to
`ThreadPoolExecutor(max_workers=...)`. -/
def effectiveWorkers (workers : Int) : Int := max 1 workers

/-- Embedding of `list(ThreadPoolExecutor(max_workers=w).map(f, l))`:
`Executor.map` yields results in the order of the input iterable, for any
pool size, so the result is `l.map f`. -/
def poolMap (workers : Int) (f : α → β) (l : List α) : List β :=
  let _ := effectiveWorkers workers
  l.map f

/-- Embedding of `map_reduce(text, workers)`. -/
def map_reduce (text : String) (workers : Int := 8) : List (String × Nat) :=
  let words := tokenize text
  if words.isEmpty then []
  else
    let mapped_values := poolMap workers map_function words
    let shuffled := shuffle_function mapped_values
    let reduced_pairs := poolMap workers reduce_function shuffled
    reduced_pairs

/-- Dictionary lookup in the embedded count map (`count_map[w]` as `Option`). -/
def lookupCount : List (String × Nat) → String → Option Nat
  | [], _ => none
  | (k', c) :: rest, k => if k' = k then some c else lookupCount rest k

/-- Bucket lookup in the embedded bucket map (empty list when absent). -/
def bucketOf : List (String × List Nat) → String → List Nat
  | [], _ => []
  | (k', vs) :: rest, k => if k' = k then vs else bucketOf rest k

/-- Count-descending comparison used by `Counter.most_common`:
`a` may come before `b` when `b`'s count does not exceed `a`'s. -/
def cge (a b : String × Nat) : Prop := b.2 ≤ a.2

instance : DecidableRel cge := fun a b => inferInstanceAs (Decidable (b.2 ≤ a.2))

instance : IsTotal (String × Nat) cge := ⟨fun a b => Nat.le_total b.2 a.2⟩

instance : IsTrans (String × Nat) cge :=
  ⟨fun _ _ _ hab hbc => Nat.le_trans hbc hab⟩

/-- Embedding of `Counter(word_counts).most_common(top_n)`: the items of the
(insertion-ordered) count map stably sorted by count descending, truncated
to the first `top_n` entries (`heapq.nlargest` is stable and equivalent to
`sorted(items, key=count, reverse=True)[:n]`). -/
def most_common (word_counts : List (String × Nat)) (top_n : Nat) : List (String × Nat) :=
  (word_counts.insertionSort cge).take top_n

/-- Python's `f"{i:>2}"`: the decimal rendering right-aligned in width 2. -/
def padTwo (s : String) : String :=
  String.mk (List.replicate (2 - s.length) ' ') ++ s

/-- One line of the console report: `f"{i:>2}. {w}: {c}"`. -/
def formatLine (i : Nat) (w : String) (c : Nat) : String :=
  padTwo (toString i) ++ ". " ++ w ++ ": " ++ toString c

/-- Embedding of `enumerate(entries, 1)` feeding the report's print loop. -/
def numberLines : Nat → List (String × Nat) → List String
  | _, [] => []
  | i, (w, c) :: rest => formatLine i w c :: numberLines (i + 1) rest

/-- Embedding of `print_top_words(word_counts, top_n)` as the list of lines
it prints. -/
def print_top_words (word_counts : List (String × Nat)) (top_n : Nat) : List String :=
  numberLines 1 (most_common word_counts top_n)

/-- The distinct elements of a list in order of first occurrence. -/
def dedupKeepFirst : List String → List String
  | [] => []
  | x :: xs => x :: dedupKeepFirst (xs.filter (· ≠ x))
termination_by l => l.length
decreasing_by
  simp only [List.length_cons]
  exact Nat.lt_succ_of_le (List.length_filter_le _ _)

/-- One step of first-occurrence deduplication: append `k` unless present. -/
def dedupStep (acc : List String) (k : String) : List String :=
  if k ∈ acc then acc else acc ++ [k]

/-- The total of all values stored in a bucket map. -/
def totalOf (bs : List (String × List Nat)) : Nat :=
  (bs.map (fun p => p.2.sum)).sum

/-! ### Shuffle-stage algebra -/

theorem bucketOf_insertBucket (bs : List (String × List Nat)) (k v k') :
    bucketOf (insertBucket bs k v) k' =
      if k' = k then bucketOf bs k ++ [v] else bucketOf bs k' := by
  induction bs with
  | nil =>
    by_cases h : k' = k
    · subst h; simp [insertBucket, bucketOf]
    · have h' : ¬ k = k' := fun hh => h hh.symm
      simp [insertBucket, bucketOf, h, h']
  | cons hd tl ih =>
    obtain ⟨k1, vs1⟩ := hd
    by_cases h1 : k1 = k
    · subst h1
      by_cases h2 : k' = k1
      · subst h2
        simp [insertBucket, bucketOf]
      · have h2' : ¬ k1 = k' := fun hh => h2 hh.symm
        simp [insertBucket, bucketOf, h2, h2']
    · by_cases h2 : k1 = k'
      · subst h2
        simp [insertBucket, bucketOf, h1]
      · have h2' : ¬ k' = k1 := fun hh => h2 hh.symm
        simp [insertBucket, bucketOf, h1, h2, ih]

theorem keys_insertBucket (bs : List (String × List Nat)) (k v) :
    (insertBucket bs k v).map Prod.fst = dedupStep (bs.map Prod.fst) k := by
  induction bs with
  | nil => simp [insertBucket, dedupStep]
  | cons hd tl ih =>
    obtain ⟨k1, vs1⟩ := hd
    by_cases h1 : k1 = k
    · subst h1
      simp [insertBucket, dedupStep]
    · have hne : ¬ k = k1 := fun h => h1 h.symm
      by_cases hmem : k ∈ tl.map Prod.fst
      · simp only [insertBucket, h1, if_false, List.map_cons, ih, dedupStep,
          if_pos hmem, List.mem_cons, if_pos (Or.inr hmem)]
      · have hnot : ¬ k ∈ (k1, vs1).fst :: tl.map Prod.fst := by
          simp [hne, hmem]
        simp only [insertBucket, h1, if_false, List.map_cons, ih, dedupStep,
          if_neg hmem, if_neg hnot, List.cons_append]

theorem totalOf_insertBucket (bs : List (String × List Nat)) (k v) :
    totalOf (insertBucket bs k v) = totalOf bs + v := by
  induction bs with
  | nil => simp [insertBucket, totalOf]
  | cons hd tl ih =>
    obtain ⟨k1, vs1⟩ := hd
    by_cases h1 : k1 = k
    · subst h1
      have hins : insertBucket ((k1, vs1) :: tl) k1 v = (k1, vs1 ++ [v]) :: tl := by
        simp [insertBucket]
      rw [hins]
      simp only [totalOf, List.map_cons, List.sum_cons, List.sum_append,
        List.sum_cons, List.sum_nil]
      omega
    · simp only [insertBucket, h1, if_false, totalOf, List.map_cons, List.sum_cons]
      have h2 := ih
      simp only [totalOf] at h2
      omega

theorem bucketOf_foldl (ps : List (String × Nat)) :
    ∀ (bs : List (String × List Nat)) (k : String),
      bucketOf (ps.foldl (fun bs kv => insertBucket bs kv.1 kv.2) bs) k =
        bucketOf bs k ++ (ps.filter (fun p => p.1 == k)).map Prod.snd := by
  induction ps with
  | nil => intro bs k; simp
  | cons p ps ih =>
    intro bs k
    rw [List.foldl_cons, ih, bucketOf_insertBucket]
    by_cases h : p.1 = k
    · subst h
      rw [if_pos rfl, List.filter_cons, if_pos (by simp), List.map_cons,
        List.append_assoc, List.singleton_append]
    · have hk : ¬ k = p.1 := fun hh => h hh.symm
      have hbeq : ¬ ((p.1 == k) = true) := by simp [h]
      rw [if_neg hk, List.filter_cons, if_neg hbeq]

theorem keys_foldl (ps : List (String × Nat)) :
    ∀ (bs : List (String × List Nat)),
      (ps.foldl (fun bs kv => insertBucket bs kv.1 kv.2) bs).map Prod.fst =
        (ps.map Prod.fst).foldl dedupStep (bs.map Prod.fst) := by
  induction ps with
  | nil => intro bs; simp
  | cons p ps ih =>
    intro bs
    simp only [List.foldl_cons, ih, keys_insertBucket, List.map_cons]

theorem totalOf_foldl (ps : List (String × Nat)) :
    ∀ (bs : List (String × List Nat)),
      totalOf (ps.foldl (fun bs kv => insertBucket bs kv.1 kv.2) bs) =
        totalOf bs + (ps.map Prod.snd).sum := by
  induction ps with
  | nil => intro bs; simp
  | cons p ps ih =>
    intro bs
    simp only [List.foldl_cons, ih, totalOf_insertBucket, List.map_cons, List.sum_cons]
    omega

/-! ### First-occurrence key order -/

theorem foldl_dedupStep_eq (l : List String) :
    ∀ acc : List String,
      l.foldl dedupStep acc =
        acc ++ dedupKeepFirst (l.filter (fun k => decide (¬ k ∈ acc))) := by
  induction l with
  | nil => intro acc; simp [dedupKeepFirst]
  | cons x xs ih =>
    intro acc
    rw [List.foldl_cons]
    by_cases hx : x ∈ acc
    · rw [ih, List.filter_cons]
      have hd : (decide (¬ x ∈ acc)) = false := by simp [hx]
      rw [if_neg (by simp [hd])]
      have : dedupStep acc x = acc := by simp [dedupStep, hx]
      rw [this]
    · rw [ih, List.filter_cons]
      have hd : (decide (¬ x ∈ acc)) = true := by simp [hx]
      rw [if_pos hd]
      have hstep : dedupStep acc x = acc ++ [x] := by simp [dedupStep, hx]
      rw [hstep, dedupKeepFirst]
      have hfilter :
          xs.filter (fun k => decide (¬ k ∈ acc ++ [x])) =
            (xs.filter (fun k => decide (¬ k ∈ acc))).filter (fun k => decide (k ≠ x)) := by
        rw [List.filter_filter]
        apply List.filter_congr
        intro a _
        by_cases h1 : a ∈ acc <;> by_cases h2 : a = x <;> simp [h1, h2]
      rw [← hfilter, List.append_assoc, List.singleton_append]

theorem mem_dedupKeepFirst : ∀ (l : List String) (x : String),
    x ∈ dedupKeepFirst l ↔ x ∈ l := by
  intro l
  induction l using dedupKeepFirst.induct with
  | case1 => simp [dedupKeepFirst]
  | case2 y ys ih =>
    intro x
    rw [dedupKeepFirst]
    simp only [List.mem_cons, ih, List.mem_filter]
    by_cases hxy : x = y <;> simp [hxy]

theorem keys_shuffle_tokens (tokens : List String) :
    (shuffle_function (tokens.map map_function)).map Prod.fst = dedupKeepFirst tokens := by
  rw [shuffle_function, keys_foldl, foldl_dedupStep_eq]
  simp only [List.map_nil, List.nil_append, List.map_map]
  have hcomp : (Prod.fst ∘ map_function) = fun w : String => w := rfl
  rw [hcomp, List.map_id']
  simp

/-! ### Mapped-pair bookkeeping -/

theorem mapped_filter_snd (tokens : List String) (k : String) :
    ((tokens.map map_function).filter (fun p => p.1 == k)).map Prod.snd =
      List.replicate (tokens.count k) 1 := by
  induction tokens with
  | nil => simp
  | cons w ws ih =>
    by_cases h : w = k
    · subst h
      simp [map_function, List.filter_cons, List.count_cons, ih, List.replicate_succ]
    · have h' : ¬ k = w := fun hh => h hh.symm
      simp [map_function, List.filter_cons, List.count_cons, ih, h, h']

theorem sum_map_one (l : List String) : (l.map (fun _ => (1 : Nat))).sum = l.length := by
  induction l with
  | nil => rfl
  | cons x xs ih =>
    simp only [List.map_cons, List.sum_cons, ih, List.length_cons]
    omega

/-! ### Reduce-stage bookkeeping -/

theorem keys_map_reduce_fn (bs : List (String × List Nat)) :
    (bs.map reduce_function).map Prod.fst = bs.map Prod.fst := by
  simp [List.map_map, reduce_function]

theorem sum_map_reduce_fn (bs : List (String × List Nat)) :
    ((bs.map reduce_function).map Prod.snd).sum = totalOf bs := by
  have hcomp : (Prod.snd ∘ reduce_function) = fun p : String × List Nat => p.2.sum := rfl
  simp only [List.map_map, hcomp, totalOf]

theorem lookupCount_map_reduce_fn (bs : List (String × List Nat)) (k : String) :
    lookupCount (bs.map reduce_function) k =
      if k ∈ bs.map Prod.fst then some (bucketOf bs k).sum else none := by
  induction bs with
  | nil => simp [lookupCount]
  | cons hd tl ih =>
    obtain ⟨k1, vs1⟩ := hd
    by_cases h : k1 = k
    · subst h
      simp [reduce_function, lookupCount, bucketOf]
    · have h' : ¬ k = k1 := fun hh => h hh.symm
      have hiff : (k ∈ k1 :: tl.map Prod.fst) ↔ (k ∈ tl.map Prod.fst) := by
        simp [h']
      simp only [List.map_cons, lookupCount, reduce_function, bucketOf, h, if_false, ih]
      by_cases hm : k ∈ tl.map Prod.fst
      · rw [if_pos hm, if_pos (hiff.mpr hm)]
      · rw [if_neg hm, if_neg (fun hc => hm (hiff.mp hc))]

/-! ### Pipeline master lemmas -/

theorem map_reduce_eq (text : String) (workers : Int) :
    map_reduce text workers =
      (shuffle_function ((tokenize text).map map_function)).map reduce_function := by
  rw [map_reduce]
  by_cases h : (tokenize text).isEmpty
  · have hnil : tokenize text = [] := by
      cases heq : tokenize text with
      | nil => rfl
      | cons a l => rw [heq] at h; simp at h
    rw [if_pos h, hnil]
    rfl
  · rw [if_neg h]
    rfl

theorem map_reduce_workers_irrel (text : String) (w1 w2 : Int) :
    map_reduce text w1 = map_reduce text w2 := by
  rw [map_reduce_eq, map_reduce_eq]

theorem keys_map_reduce (text : String) (workers : Int) :
    (map_reduce text workers).map Prod.fst = dedupKeepFirst (tokenize text) := by
  rw [map_reduce_eq, keys_map_reduce_fn, keys_shuffle_tokens]

theorem lookup_map_reduce (text : String) (workers : Int) (w : String)
    (h : w ∈ tokenize text) :
    lookupCount (map_reduce text workers) w = some ((tokenize text).count w) := by
  rw [map_reduce_eq, lookupCount_map_reduce_fn]
  have hmem : w ∈ (shuffle_function ((tokenize text).map map_function)).map Prod.fst := by
    rw [keys_shuffle_tokens, mem_dedupKeepFirst]
    exact h
  rw [if_pos hmem, shuffle_function, bucketOf_foldl, mapped_filter_snd]
  simp [bucketOf, List.sum_replicate]

theorem sum_map_reduce (text : String) (workers : Int) :
    ((map_reduce text workers).map Prod.snd).sum = (tokenize text).length := by
  rw [map_reduce_eq, sum_map_reduce_fn, shuffle_function, totalOf_foldl]
  simp only [totalOf, List.map_nil, List.sum_nil, Nat.zero_add, List.map_map]
  have : (Prod.snd ∘ map_function) = fun _ : String => (1 : Nat) := rfl
  rw [this, sum_map_one]

/-! ### Ranker lemmas -/

theorem filter_orderedInsert (c : Nat) (a : String × Nat) :
    ∀ l : List (String × Nat),
      (List.orderedInsert cge a l).filter (fun p => p.2 == c) =
        ((a :: l).filter (fun p => p.2 == c)) := by
  intro l
  induction l with
  | nil => simp [List.orderedInsert]
  | cons b l ih =>
    rw [List.orderedInsert]
    by_cases hr : cge a b
    · rw [if_pos hr]
    · rw [if_neg hr]
      have hr' : ¬ (b.2 ≤ a.2) := hr
      by_cases hb : b.2 = c
      · have ha : ¬ a.2 = c := by omega
        simp only [List.filter_cons, ih]
        simp [ha, hb]
      · simp only [List.filter_cons, ih]
        simp [hb]

theorem filter_insertionSort (c : Nat) (l : List (String × Nat)) :
    (l.insertionSort cge).filter (fun p => p.2 == c) =
      l.filter (fun p => p.2 == c) := by
  induction l with
  | nil => rfl
  | cons a l ih =>
    rw [List.insertionSort, filter_orderedInsert, List.filter_cons, List.filter_cons, ih]

theorem length_insertionSort_cge (l : List (String × Nat)) :
    (l.insertionSort cge).length = l.length :=
  (List.perm_insertionSort cge l).length_eq

theorem sorted_most_common (counts : List (String × Nat)) (n : Nat) :
    List.Sorted cge (most_common counts n) :=
  List.Pairwise.sublist (List.take_sublist n _) (List.sorted_insertionSort cge counts)

theorem length_most_common (counts : List (String × Nat)) (n : Nat) :
    (most_common counts n).length = min n counts.length := by
  rw [most_common, List.length_take, length_insertionSort_cge]

/-! ### Tokenizer structural lemmas -/

theorem splitRunsAux_mem : ∀ (cs cur : List Char),
    (∀ c ∈ cur, isTokChar c) →
    ∀ run ∈ splitRunsAux cur cs, run ≠ [] ∧ ∀ c ∈ run, isTokChar c := by
  intro cs
  induction cs with
  | nil =>
    intro cur hcur run hrun
    rw [splitRunsAux] at hrun
    by_cases h : cur.isEmpty
    · rw [if_pos h] at hrun
      simp at hrun
    · rw [if_neg h] at hrun
      simp only [List.mem_singleton] at hrun
      subst hrun
      refine ⟨?_, fun c hc => hcur c (List.mem_reverse.mp hc)⟩
      simp only [ne_eq, List.reverse_eq_nil_iff]
      intro hnil
      exact h (by simp [hnil])
  | cons c cs ih =>
    intro cur hcur run hrun
    rw [splitRunsAux] at hrun
    by_cases htok : isTokChar c
    · rw [if_pos htok] at hrun
      refine ih (c :: cur) ?_ run hrun
      intro d hd
      rcases List.mem_cons.mp hd with rfl | hd
      · exact htok
      · exact hcur d hd
    · rw [if_neg htok] at hrun
      rcases List.mem_append.mp hrun with h1 | h2
      · by_cases hemp : cur.isEmpty
        · rw [if_pos hemp] at h1
          simp at h1
        · rw [if_neg hemp] at h1
          simp only [List.mem_singleton] at h1
          subst h1
          refine ⟨?_, fun d hd => hcur d (List.mem_reverse.mp hd)⟩
          simp only [ne_eq, List.reverse_eq_nil_iff]
          intro hnil
          exact hemp (by simp [hnil])
      · exact ih [] (by simp) run h2

theorem dropWhile_ap_head : ∀ (l : List Char),
    (∀ c ∈ l, isTokChar c) → l.any isWordChar = true →
    ∃ x xs, l.dropWhile (· == '\'') = x :: xs ∧ isWordChar x ∧
      (∀ c ∈ x :: xs, isTokChar c) ∧ (x :: xs).any isWordChar = true := by
  intro l
  induction l with
  | nil => intro _ hany; simp at hany
  | cons c cs ih =>
    intro htok hany
    by_cases hc : (c == '\'') = true
    · have hcq : c = '\'' := by simpa using hc
      have hw : isWordChar c = false := by subst hcq; decide
      rw [List.dropWhile_cons, if_pos hc]
      have hany' : cs.any isWordChar = true := by
        simp only [List.any_cons, hw, Bool.false_or] at hany
        exact hany
      exact ih (fun d hd => htok d (List.mem_cons_of_mem _ hd)) hany'
    · rw [List.dropWhile_cons, if_neg hc]
      have htc := htok c (List.mem_cons_self c cs)
      have hcw : isWordChar c = true := by
        have hne : ¬ c = '\'' := by simpa using hc
        simp only [isTokChar, Bool.or_eq_true, decide_eq_true_eq] at htc
        rcases htc with h | h
        · exact h
        · exact absurd h hne
      exact ⟨c, cs, rfl, hcw, htok, by simp [List.any_cons, hcw]⟩

theorem dropWhile_getLast_q (p : Char → Bool) :
    ∀ l : List Char, l.dropWhile p ≠ [] → (l.dropWhile p).getLast? = l.getLast? := by
  intro l
  induction l with
  | nil => intro h; simp at h
  | cons c cs ih =>
    intro h
    by_cases hc : p c = true
    · rw [List.dropWhile_cons, if_pos hc] at h ⊢
      rw [ih h]
      cases cs with
      | nil => simp at h
      | cons d ds => rw [List.getLast?_cons_cons]
    · rw [List.dropWhile_cons, if_neg hc]

theorem trimApos_spec (l : List Char) (htok : ∀ c ∈ l, isTokChar c)
    (hany : l.any isWordChar = true) :
    trimApos l ≠ [] ∧ (∀ c ∈ trimApos l, isTokChar c) ∧
      (∃ c, (trimApos l).head? = some c ∧ isWordChar c) ∧
      (∃ c, (trimApos l).getLast? = some c ∧ isWordChar c) := by
  obtain ⟨x, xs, hd, hxw, hdtok, hdany⟩ := dropWhile_ap_head l htok hany
  have hrev_tok : ∀ c ∈ (x :: xs).reverse, isTokChar c :=
    fun c hc => hdtok c (List.mem_reverse.mp hc)
  have hrev_any : (x :: xs).reverse.any isWordChar = true := by
    rw [List.any_reverse]; exact hdany
  obtain ⟨y, ys, he, hyw, hetok, heany⟩ := dropWhile_ap_head (x :: xs).reverse hrev_tok hrev_any
  have htrim : trimApos l = (y :: ys).reverse := by
    rw [trimApos, hd, he]
  refine ⟨?_, ?_, ?_, ?_⟩
  · rw [htrim]; simp
  · rw [htrim]; intro c hc; exact hetok c (List.mem_reverse.mp hc)
  · rw [htrim, List.head?_reverse]
    have hne : (x :: xs).reverse.dropWhile (· == '\'') ≠ [] := by rw [he]; simp
    have h1 : (y :: ys).getLast? = (x :: xs).reverse.getLast? := by
      rw [← he]
      exact dropWhile_getLast_q _ _ hne
    rw [h1, List.getLast?_reverse]
    exact ⟨x, rfl, hxw⟩
  · rw [htrim, List.getLast?_reverse]
    exact ⟨y, rfl, hyw⟩

theorem tokenize_structure (text : String) (t : String) (ht : t ∈ tokenize text) :
    t.data ≠ [] ∧ (∀ c ∈ t.data, isTokChar c) ∧
      (∃ c, t.data.head? = some c ∧ isWordChar c) ∧
      (∃ c, t.data.getLast? = some c ∧ isWordChar c) := by
  rw [tokenize] at ht
  rcases List.mem_map.mp ht with ⟨cs, hcs, rfl⟩
  rw [findallTokens] at hcs
  rcases List.mem_filterMap.mp hcs with ⟨run, hrun, hsome⟩
  by_cases hword : run.any isWordChar = true
  · rw [if_pos hword] at hsome
    have hcseq : cs = trimApos run := (Option.some.injEq _ _ ▸ hsome).symm
    obtain ⟨hne, htokr⟩ := splitRunsAux_mem _ [] (by simp) run hrun
    have hspec := trimApos_spec run htokr hword
    have hdata : (String.mk cs).data = cs := rfl
    rw [hdata, hcseq]
    exact hspec
  · rw [if_neg hword] at hsome
    exact absurd hsome (by simp)

/-! ### Report lemmas -/

theorem numberLines_eq : ∀ (l : List (String × Nat)) (j : Nat),
    numberLines j l = (l.enumFrom j).map (fun p => formatLine p.1 p.2.1 p.2.2) := by
  intro l
  induction l with
  | nil => intro j; rfl
  | cons hd tl ih =>
    intro j
    obtain ⟨w, c⟩ := hd
    rw [numberLines, List.enumFrom_cons, List.map_cons, ih]

/-! ### Claims -/

/-- C1: for every input text and worker count, the count map returned by
`map_reduce` gives each tokenized word its occurrence count in
`tokenize text`, its key set is exactly the set of distinct tokens, and the
counts sum to the number of tokens. -/
theorem map_reduce_count_correct (text : String) (workers : Int) :
    (∀ w, w ∈ tokenize text →
        lookupCount (map_reduce text workers) w = some ((tokenize text).count w)) ∧
    (∀ w, w ∈ (map_reduce text workers).map Prod.fst ↔ w ∈ tokenize text) ∧
    ((map_reduce text workers).map Prod.snd).sum = (tokenize text).length := by
  refine ⟨fun w hw => lookup_map_reduce text workers w hw, fun w => ?_,
    sum_map_reduce text workers⟩
  rw [keys_map_reduce, mem_dedupKeepFirst]

/-- C1 witness: on the text "a b a" the count of "a" is 2. -/
theorem map_reduce_count_correct_witness :
    lookupCount (map_reduce "a b a" 8) "a" = some ((tokenize "a b a").count "a") :=
  (map_reduce_count_correct "a b a" 8).1 "a" (by decide)

/-- C2 counterexample: on the input made of three apostrophes, the maximal
run of characters from the class letter/digit/underscore/apostrophe is the
whole input, yet `tokenize` returns nothing: the regex requires a word
boundary, so tokens cannot consist solely of apostrophes, refuting the
claim that every maximal run is returned as a token. -/
theorem tokenize_maximal_runs_counterexample :
    tokenize "'''" = [] ∧ spec_tokenize "'''" = ["'''"] ∧
      tokenize "'''" ≠ spec_tokenize "'''" := by
  refine ⟨rfl, rfl, ?_⟩
  decide

/-- C2 (amended): `tokenize` lower-cases the full text and returns, for each
maximal run of letter/digit/underscore/apostrophe characters that contains
at least one non-apostrophe character, that run with leading and trailing
apostrophes removed; runs consisting solely of apostrophes yield no token;
the empty string yields the empty sequence; `tokenize` is total. Every
token is nonempty, consists of characters from the class, and begins and
ends with a word character. -/
theorem tokenize_amended :
    tokenize "" = [] ∧
    (∀ text, tokenize text =
        (tokenRuns (lowerStr text).data).filterMap
          (fun run => if run.any isWordChar then some (String.mk (trimApos run)) else none)) ∧
    (∀ text t, t ∈ tokenize text →
        t.data ≠ [] ∧ (∀ c ∈ t.data, isTokChar c) ∧
          (∃ c, t.data.head? = some c ∧ isWordChar c) ∧
          (∃ c, t.data.getLast? = some c ∧ isWordChar c)) := by
  refine ⟨rfl, fun text => ?_, fun text t ht => tokenize_structure text t ht⟩
  rw [tokenize, findallTokens, List.map_filterMap]
  congr 1
  funext run
  by_cases h : run.any isWordChar = true <;> simp [h]

/-- C2 witness: the token "don't" extracted from "Don't stop" is nonempty,
made of class characters, and delimited by word characters. -/
theorem tokenize_amended_witness :
    ("don't" : String).data ≠ [] ∧ (∀ c ∈ ("don't" : String).data, isTokChar c) ∧
      (∃ c, ("don't" : String).data.head? = some c ∧ isWordChar c) ∧
      (∃ c, ("don't" : String).data.getLast? = some c ∧ isWordChar c) :=
  tokenize_amended.2.2 "Don't stop" "don't" (by decide)

/-- C3 counterexample: on "the cat sat on the mat the cat ran" the ranker's
tie-break is first-occurrence order, so the third entry is ("sat", 1), not
("mat", 1) as the claim's alphabetical tie-break predicts. -/
theorem top_words_tiebreak_counterexample :
    most_common (map_reduce "the cat sat on the mat the cat ran" 8) 3 =
        [("the", 3), ("cat", 2), ("sat", 1)] ∧
      most_common (map_reduce "the cat sat on the mat the cat ran" 8) 3 ≠
        [("the", 3), ("cat", 2), ("mat", 1)] := by
  constructor
  · rfl
  · decide

/-- C3 (amended): the pipeline produces counts the=3, cat=2, sat=1, on=1,
mat=1, ran=1; the ranker's deterministic tie-break is first-occurrence
order in the text, so top-3 is [(the,3),(cat,2),(sat,1)]; on "a a a b b c"
top-2 is [(a,3),(b,2)]. -/
theorem top_words_examples_amended :
    map_reduce "the cat sat on the mat the cat ran" 8 =
        [("the", 3), ("cat", 2), ("sat", 1), ("on", 1), ("mat", 1), ("ran", 1)] ∧
      most_common (map_reduce "the cat sat on the mat the cat ran" 8) 3 =
        [("the", 3), ("cat", 2), ("sat", 1)] ∧
      most_common (map_reduce "a a a b b c" 8) 2 = [("a", 3), ("b", 2)] :=
  ⟨rfl, rfl, rfl⟩

/-- C4: the ranker returns at most N entries, sorted by count descending
(with the deterministic, stable tie-break `cge`); N = 0 yields the empty
sequence; when N is at least the number of distinct words it returns all
words ranked; the empty count map yields the empty sequence. -/
theorem ranker_contract (counts : List (String × Nat)) (n : Nat) :
    (most_common counts n).length ≤ n ∧
    List.Sorted cge (most_common counts n) ∧
    most_common counts 0 = [] ∧
    (counts.length ≤ n →
      most_common counts n = counts.insertionSort cge ∧
        (most_common counts n).Perm counts) ∧
    most_common [] n = [] := by
  refine ⟨?_, sorted_most_common counts n, rfl, ?_, ?_⟩
  · rw [length_most_common]
    exact Nat.min_le_left _ _
  · intro h
    have hlen : (counts.insertionSort cge).length ≤ n := by
      rw [length_insertionSort_cge]; exact h
    rw [most_common, List.take_of_length_le hlen]
    exact ⟨rfl, List.perm_insertionSort cge counts⟩
  · rw [most_common]
    simp

/-- C4 witness: asking for 5 entries of a 2-entry count map returns all of
it, ranked. -/
theorem ranker_contract_witness :
    most_common [("b", 1), ("a", 1)] 5 = [("b", 1), ("a", 1)].insertionSort cge ∧
      (most_common [("b", 1), ("a", 1)] 5).Perm [("b", 1), ("a", 1)] :=
  (ranker_contract [("b", 1), ("a", 1)] 5).2.2.2.1 (by decide)

/-- C5: the pipeline is deterministic — running it twice on the same text
gives the same count map — and its result does not depend on the worker
count (`ThreadPoolExecutor.map` yields results in input order). -/
theorem map_reduce_deterministic (text : String) (w1 w2 : Int) :
    map_reduce text w1 = map_reduce text w1 ∧
      map_reduce text w1 = map_reduce text w2 :=
  ⟨rfl, map_reduce_workers_irrel text w1 w2⟩

/-- C6: the top-N selection is the first N entries of the top-(N+k)
selection, for any k. -/
theorem most_common_take_stable (counts : List (String × Nat)) (n k : Nat) :
    most_common counts n = (most_common counts (n + k)).take n := by
  rw [most_common, most_common, List.take_take, Nat.min_eq_left (Nat.le_add_right n k)]

/-- C7: `map_reduce` returns the empty count map exactly when tokenization
yields zero tokens (and it returns rather than raising in that case). -/
theorem map_reduce_empty_iff (text : String) (workers : Int) :
    map_reduce text workers = [] ↔ tokenize text = [] := by
  constructor
  · intro h
    have hk := keys_map_reduce text workers
    rw [h] at hk
    cases htok : tokenize text with
    | nil => rfl
    | cons a l =>
      rw [htok, dedupKeepFirst] at hk
      simp at hk
  · intro h
    rw [map_reduce_eq, h]
    rfl

/-- C8: a requested worker count below 1 is clamped to an effective pool
size of 1, and `map_reduce` still runs to completion with the same result
as with one worker; `map_reduce` is total over all integer worker counts. -/
theorem workers_clamped (workers : Int) (h : workers < 1) :
    effectiveWorkers workers = 1 ∧
      ∀ text, map_reduce text workers = map_reduce text 1 := by
  constructor
  · rw [effectiveWorkers]
    exact max_eq_left (le_of_lt h)
  · intro text
    exact map_reduce_workers_irrel text workers 1

/-- C8 witness: a requested worker count of -3 is clamped to 1 and the
pipeline result is unchanged. -/
theorem workers_clamped_witness :
    effectiveWorkers (-3) = 1 ∧ map_reduce "x y" (-3) = map_reduce "x y" 1 :=
  ⟨(workers_clamped (-3) (by decide)).1, (workers_clamped (-3) (by decide)).2 "x y"⟩

/-- C9: the console report is the ranked list printed 1-indexed, one line
per entry, each line being the rank right-aligned in width 2, then a dot
and a space, the word, a colon and a space, and the count. -/
theorem print_top_words_format (word_counts : List (String × Nat)) (top_n : Nat) :
    print_top_words word_counts top_n =
      ((most_common word_counts top_n).enumFrom 1).map
        (fun p => padTwo (toString p.1) ++ ". " ++ p.2.1 ++ ": " ++ toString p.2.2) := by
  rw [print_top_words, numberLines_eq]
  rfl

/-- C10: the count map enumerates its keys in first-occurrence order of the
tokenized input, and the ranker's stable sort keeps entries with equal
counts in count-map order, so the tie-break is first-occurrence order. -/
theorem count_map_first_occurrence_order (text : String) (workers : Int) :
    (map_reduce text workers).map Prod.fst = dedupKeepFirst (tokenize text) ∧
    ∀ c : Nat,
      (most_common (map_reduce text workers) (map_reduce text workers).length).filter
          (fun p => p.2 == c) =
        (map_reduce text workers).filter (fun p => p.2 == c) := by
  refine ⟨keys_map_reduce text workers, fun c => ?_⟩
  rw [most_common, List.take_of_length_le (le_of_eq (length_insertionSort_cge _)),
    filter_insertionSort]

end Task
